import Mathlib

/-!
Shallow embedding of the step/hook registry of `aloe` (files
`src/aloe/registry.py` and `src/aloe/utils.py`).

Strings are modelled as `List Char` (Python `len`, indexing and `endswith`
are all character-based).  The external regular-expression engine (Python's
`re` module) is modelled abstractly: a compiled pattern is its `search`
behaviour, a function from an input sentence to an optional match carrying
the match's start offset, its unnamed groups and its named-group dictionary.
Compilation is an abstract fallible function supplied as a parameter.
-/

namespace Aloe

/-- A regular-expression match object, as consumed by `StepDict.match_step`:
`start` is `match.start(0)`, `groups` is `match.groups()` (unmatched groups
are `none`), `groupdict` is `match.groupdict()` as an association list. -/
structure RMatch where
  start : Nat
  groups : List (Option (List Char))
  groupdict : List (List Char × Option (List Char))
deriving DecidableEq

/-- A compiled pattern, as produced by `re.compile`: its `pattern` attribute
(`re` guarantees it equals the source string passed to `re.compile`) and its
`search` behaviour. -/
structure CompiledRe where
  pattern : List Char
  search : List Char → Option RMatch

namespace StepDict

variable {F E : Type}

/-- `sentence.endswith("$")` : whether the last character is `'$'`. -/
def ends_dollar (s : List Char) : Bool := s.getLast? == some '$'

/-- The mutation performed at the start of `_assert_is_step`:
`if not sentence.endswith("$"): sentence += "$"`. -/
def anchor (s : List Char) : List Char := if ends_dollar s then s else s ++ ['$']

/-- The `StepLoadingError` raised by `_assert_is_step`; its message contains
the offending (already anchored) pattern, the function being registered and
the underlying compilation error, modelled here as fields. -/
structure StepLoadingError (F E : Type) where
  pattern : List Char
  func : F
  error : E
deriving DecidableEq

/-- `StepDict.steps`: an insertion-ordered mapping from pattern source
string to `(compiled pattern, function)`, modelled as an association list
with unique keys in insertion order. -/
abbrev Steps (F : Type) := List (List Char × (CompiledRe × F))

/-- `self.steps[k] = v` on a Python (insertion-ordered) dict: an existing
key keeps its position and gets the new value, a new key is appended. -/
def dictInsert (k : List Char) (v : CompiledRe × F) : Steps F → Steps F
  | [] => [(k, v)]
  | kv :: rest => if kv.1 = k then (k, v) :: rest else kv :: dictInsert k v rest

/-- `StepDict._assert_is_step`: anchor the sentence with a trailing `$` if
it does not already end in one, then compile it; a compilation error is
wrapped in a `StepLoadingError` carrying the pattern, the function and the
underlying error.  The abstract `compileFn` stands for `re.compile` with
`re.I | re.U`; the compiled object's `pattern` attribute is the (anchored)
source string. -/
def _assert_is_step (compileFn : List Char → Except E (List Char → Option RMatch))
    (sentence : List Char) (func : F) : Except (StepLoadingError F E) CompiledRe :=
  let sentence := anchor sentence
  match compileFn sentence with
  | .ok srch => .ok ⟨sentence, srch⟩
  | .error exc => .error ⟨sentence, func, exc⟩

/-- `StepDict.load`, in state-passing form: on success the new `steps`
mapping (keyed by `step_re.pattern`) with no error, on a compilation
failure the original mapping unchanged together with the raised
`StepLoadingError`.  (The attribute assignments on `func` and the `return
func` do not affect the registry and are not modelled.) -/
def load (compileFn : List Char → Except E (List Char → Option RMatch))
    (self_steps : Steps F) (sentence : List Char) (func : F) :
    Steps F × Option (StepLoadingError F E) :=
  match _assert_is_step compileFn sentence func with
  | .ok step_re => (dictInsert step_re.pattern (step_re, func) self_steps, none)
  | .error exc => (self_steps, some exc)

/-- `StepDict.unload`: `del self.steps[sentence]` with `KeyError` ignored,
i.e. remove the entry with the given key if present (keys are unique, so
removing every entry with that key is the same operation). -/
def unload (self_steps : Steps F) (sentence : List Char) : Steps F :=
  self_steps.filter (fun kv => kv.1 != sentence)

/-- Whether `k` is a key of the mapping. -/
def hasKey (d : Steps F) (k : List Char) : Bool := d.any (fun kv => kv.1 == k)

/-- The function component of `match_step`'s result: either a registered
function or the `undefined_step` sentinel imported from `aloe.exceptions`. -/
inductive StepFunc (F : Type)
  | defined (f : F)
  | undefined_step
deriving DecidableEq

/-- The `(function, args, kwargs)` triple returned by `match_step`. -/
structure MatchResult (F : Type) where
  func : StepFunc F
  args : List (Option (List Char))
  kwargs : List (List Char × Option (List Char))
deriving DecidableEq

/-- The loop of `StepDict.match_step` over `self.steps.values()`.  The
state (`matched`, `matched_func`) is modelled as one option (the source
assigns both in the same branch); `matched_pos` is initialised by the
caller to `len(step_.sentence)` and — exactly as in the source — is never
reassigned inside the loop: the comparison `pos < matched_pos` is always
against that initial value. -/
def match_loop (sentence : List Char) :
    List (CompiledRe × F) → Option (RMatch × F) → Nat → Option (RMatch × F)
  | [], matched, _ => matched
  | (regex, func) :: rest, matched, matched_pos =>
    match regex.search sentence with
    | some new_match =>
      if new_match.start < matched_pos then
        match_loop sentence rest (some (new_match, func)) matched_pos
      else
        match_loop sentence rest matched matched_pos
    | none => match_loop sentence rest matched matched_pos

/-- `StepDict.match_step`: run the loop with `matched_pos = len(sentence)`,
then return `(matched_func, (), groupdict)` when the winning match has
named groups, `(matched_func, groups, {})` when it has none, and
`(undefined_step, (), {})` when nothing matched. -/
def match_step (steps : Steps F) (sentence : List Char) : MatchResult F :=
  match match_loop sentence (steps.map Prod.snd) none sentence.length with
  | some (matched, matched_func) =>
    if matched.groupdict = [] then ⟨.defined matched_func, matched.groups, []⟩
    else ⟨.defined matched_func, [], matched.groupdict⟩
  | none => ⟨.undefined_step, [], []⟩

/-- The outcome of invoking the callable returned by `match_step`. -/
inductive StepOutcome (R : Type)
  | ok (r : R)
  | undefinedStepSignal
deriving DecidableEq

/-- Modelled from the spec: `undefined_step` (from `aloe.exceptions`, a
module of this repository not under `src/`) is a sentinel callable whose
invocation signals the undefined-step condition instead of executing test
logic; a registered function just runs on its arguments. -/
def invokeMatched {R : Type}
    (run : F → List (Option (List Char)) → List (List Char × Option (List Char)) → R) :
    MatchResult F → StepOutcome R
  | ⟨.defined f, args, kwargs⟩ => .ok (run f args kwargs)
  | ⟨.undefined_step, _, _⟩ => .undefinedStepSignal

/-- `re.search` behaviour of an end-anchored literal pattern `lit + "$"` on
a concrete input: it matches exactly when `lit` is a suffix of the input,
with the match starting where the suffix starts.  Used to instantiate the
abstract pattern model on concrete examples. -/
def searchSuffix (lit : List Char) (s : List Char) : Option RMatch :=
  if lit.isSuffixOf s then some ⟨s.length - lit.length, [], []⟩ else none

/-- A concrete compiled pattern for the anchored literal `lit + "$"`. -/
def suffixRe (lit : String) : CompiledRe :=
  ⟨lit.toList ++ ['$'], searchSuffix lit.toList⟩

/-- A concrete compilation function that always succeeds, giving every
pattern the suffix-literal behaviour of `searchSuffix`. -/
def compileOk : List Char → Except Unit (List Char → Option RMatch) :=
  fun p => .ok (searchSuffix p)

/-- A concrete compilation function that always fails with error code 3
(standing for `re.error` on a malformed pattern). -/
def compileBad : List Char → Except Nat (List Char → Option RMatch) :=
  fun _ => .error 3

/-- Concrete registry: pattern 0 (`abcdef$`, registered first) matches the
sentence `abcdef` at offset 0; pattern 1 (`def$`, registered second)
matches it at offset 3. -/
def c1Steps : Steps Nat :=
  [((("abcdef$").toList), (suffixRe "abcdef", 0)),
   ((("def$").toList), (suffixRe "def", 1))]

/-- Concrete registry: patterns 0 (`abc$`) and 1 (`ABC$`, case-insensitive,
so the same search behaviour) both match the sentence `abc` at offset 0;
pattern 0 was registered first. -/
def c2Steps : Steps Nat :=
  [((("abc$").toList), (suffixRe "abc", 0)),
   ((("ABC$").toList), (suffixRe "abc", 1))]

/-- Concrete registry with a single pattern `xyz$` that does not match the
sentence `abc`. -/
def c8Steps : Steps Nat :=
  [((("xyz$").toList), (suffixRe "xyz", 0))]

end StepDict

namespace CallbackDict

/-- A before- or after-hook for the execution model: `id` labels the hook in
the event trace; `exc = some e` means invoking the hook raises `e`, `none`
means it returns normally. -/
structure BHook where
  id : Nat
  exc : Option Nat
deriving DecidableEq

/-- An around-hook (a context manager): entering or exiting it may raise. -/
structure AroundHook where
  id : Nat
  enterExc : Option Nat
  exitExc : Option Nat
deriving DecidableEq

/-- One observable event during an invocation of the wrapper built by
`CallbackDict.wrap`. -/
inductive HookEvent
  | before (id : Nat)
  | enter (id : Nat)
  | bodyRun
  | exit (id : Nat)
  | after (id : Nat)
deriving DecidableEq

section Buckets

variable {P N β : Type} [DecidableEq P] [DecidableEq N]

/-- `CallbackDict.append_to` restricted to one `self[what][when]` dict,
modelled as an association list priority → ordered dict (itself an
association list name → function, in insertion order):
`funcs = self[what][when].setdefault(priority, OrderedDict())` finds the
priority bucket or appends an empty one at the end, then
`funcs.pop(name, None); funcs[name] = function` removes the identity if
present and appends it at the end (`OrderedDict` keys are unique, so
removing every entry with that name is the same operation). -/
def append_to (d : List (P × List (N × β))) (priority : P) (name : N) (function : β) :
    List (P × List (N × β)) :=
  match d with
  | [] => [(priority, [(name, function)])]
  | (p, funcs) :: rest =>
    if p = priority then
      (p, funcs.filter (fun kv => kv.1 != name) ++ [(name, function)]) :: rest
    else
      (p, funcs) :: append_to rest priority name function

/-- Dict lookup (`self[what][when][priority]`). -/
def dictGet (d : List (P × List (N × β))) (p : P) : Option (List (N × β)) :=
  (d.find? (fun x => x.1 == p)).map (fun x => x.2)

end Buckets

section HookList

variable {P N β : Type} [LinearOrder P] [DecidableEq N]

/-- `CallbackDict.hook_list`:
`tuple(func for priority in sorted(self[what][when].keys()) for func in
self[what][when][priority].values())` — visit priority buckets in ascending
priority order (keys of a dict are unique, so any stable sort agrees with
Python's `sorted`) and concatenate each bucket's functions in insertion
order. -/
def hook_list (d : List (P × List (N × β))) : List β :=
  ((List.insertionSort (fun a b => a ≤ b) (d.map Prod.fst)).map
    (fun priority => ((dictGet d priority).getD []).map Prod.snd)).flatten

end HookList

/-- The three `self[what][·]` dicts consulted by `CallbackDict.wrap(what)`
for one fixed scope `what` (priorities `P`, identities `Nat`). -/
structure ScopeHooks (P : Type) where
  before : List (P × List (Nat × BHook))
  around : List (P × List (Nat × AroundHook))
  after : List (P × List (Nat × BHook))

/-- The `for before_hook in before_hooks: before_hook(...)` loop: each
invoked hook emits its event; the first raising hook aborts the loop and
its exception propagates (nothing after it in `wrapped` runs). -/
def runBefores : List BHook → List HookEvent × Option Nat
  | [] => ([], none)
  | h :: rest =>
    match h.exc with
    | some e => ([.before h.id], some e)
    | none =>
      let (tr, o) := runBefores rest
      (.before h.id :: tr, o)

/-- Modelled from the spec: the entry half of `multi_manager` (from
`aloe.codegen`, a module of this repository not under `src/`), which nests
the around-hooks as scoped-acquisition regions in the given order.  Entries
run in order; a raising entry aborts the remaining entries (and the body)
but the already-entered regions (returned in entry order) are still
unwound. -/
def runEnters : List AroundHook → List HookEvent × List AroundHook × Option Nat
  | [] => ([], [], none)
  | h :: rest =>
    match h.enterExc with
    | some e => ([.enter h.id], [], some e)
    | none =>
      let (tr, ent, o) := runEnters rest
      (.enter h.id :: tr, h :: ent, o)

/-- Modelled from the spec: the exit half of `multi_manager` — the entered
regions are exited in reverse order of entry (the argument is already the
exit execution order), every exit runs even if the body or an earlier exit
failed, and the first failure encountered is the one propagated. -/
def runExits : List AroundHook → Option Nat → List HookEvent × Option Nat
  | [], cur => ([], cur)
  | h :: rest, cur =>
    let cur' := match cur with
      | some e => some e
      | none => h.exitExc
    let (tr, o) := runExits rest cur'
    (.exit h.id :: tr, o)

/-- The `finally: for after_hook in reversed(after_hooks): after_hook(...)`
loop (the argument is already the reversed, i.e. execution, order): a
raising after-hook aborts the loop and its exception replaces any pending
one (a `raise` inside a `finally` block discards the exception being
propagated). -/
def runAfters : List BHook → Option Nat → List HookEvent × Option Nat
  | [], cur => ([], cur)
  | h :: rest, cur =>
    match h.exc with
    | some e => ([.after h.id], some e)
    | none =>
      let (tr, o) := runAfters rest cur
      (.after h.id :: tr, o)

/-- The function returned by `CallbackDict.wrap(what, function, ...)`,
invoked on a body whose own outcome is `bodyExc` (`none` = returns
normally, `some e` = raises `e`).  The result is the trace of hook/body
events together with the exception observed by the caller (`none` = the
wrapper returns normally). -/
def wrapped {P : Type} [LinearOrder P] (s : ScopeHooks P) (bodyExc : Option Nat) :
    List HookEvent × Option Nat :=
  let before_hooks := hook_list s.before
  let around_hooks := hook_list s.around
  let after_hooks := hook_list s.after
  let (tr1, o1) := runBefores before_hooks
  match o1 with
  | some e => (tr1, some e)
  | none =>
    let (tr2, entered, o2) := runEnters around_hooks
    match o2 with
    | some e =>
      let (tr3, o3) := runExits entered.reverse (some e)
      let (tr4, o4) := runAfters after_hooks.reverse o3
      (tr1 ++ tr2 ++ tr3 ++ tr4, o4)
    | none =>
      let (tr3, o3) := runExits entered.reverse bodyExc
      let (tr4, o4) := runAfters after_hooks.reverse o3
      (tr1 ++ tr2 ++ [HookEvent.bodyRun] ++ tr3 ++ tr4, o4)

/-- Concrete scope with one non-raising hook of each timing (before 1,
around 2, after 3), all at priority 0. -/
def c3Scope : ScopeHooks Nat :=
  ⟨append_to [] 0 1 ⟨1, none⟩, append_to [] 0 2 ⟨2, none, none⟩, append_to [] 0 3 ⟨3, none⟩⟩

/-- Concrete scope with no before/around hooks and two after-hooks: hook 1
(priority 0, registered first, does not raise) and hook 2 (priority 5,
registered second, raises 7).  In cleanup execution order (descending
priority) hook 2 runs first. -/
def c4Scope : ScopeHooks Nat :=
  ⟨[], [], append_to (append_to [] 0 1 ⟨1, none⟩) 5 2 ⟨2, some 7⟩⟩

/-- Concrete scope for the nesting claim: before-hooks B1 (id 1, priority
0) and B2 (id 2, priority 5), around-hooks R1, R2 and after-hooks A1, A2
likewise, each pair registered in reverse priority order (higher priority
first) to show ordering comes from priorities, not registration order. -/
def c5Scope : ScopeHooks Nat :=
  ⟨append_to (append_to [] 5 2 ⟨2, none⟩) 0 1 ⟨1, none⟩,
   append_to (append_to [] 5 2 ⟨2, none, none⟩) 0 1 ⟨1, none, none⟩,
   append_to (append_to [] 5 2 ⟨2, none⟩) 0 1 ⟨1, none⟩⟩

end CallbackDict

namespace StepDict

variable {F E : Type}

theorem ends_dollar_append (s : List Char) : ends_dollar (s ++ ['$']) = true := by
  rw [ends_dollar, List.getLast?_concat]
  rfl

theorem anchor_of_not_anchored {s : List Char} (h : ends_dollar s = false) :
    anchor s = s ++ ['$'] := by
  rw [anchor, h]
  rfl

theorem anchor_of_anchored (s : List Char) : anchor (s ++ ['$']) = s ++ ['$'] := by
  rw [anchor, ends_dollar_append]
  rfl

theorem match_loop_of_no_match (sentence : List Char) (l : List (CompiledRe × F)) (pos : Nat)
    (h : ∀ rf ∈ l, rf.1.search sentence = none) :
    match_loop sentence l none pos = none := by
  induction l with
  | nil => rfl
  | cons rf rest ih =>
    have hr : rf.1.search sentence = none := h rf (List.mem_cons_self rf rest)
    simp only [match_loop, hr]
    exact ih (fun x hx => h x (List.mem_cons_of_mem rf hx))

theorem hasKey_unload (d : Steps F) (k : List Char) : hasKey (unload d k) k = false := by
  rw [hasKey, List.any_eq_false]
  intro kv hkv
  rw [unload, List.mem_filter] at hkv
  have h2 := hkv.2
  rw [bne_iff_ne] at h2
  simp only [beq_iff_eq]
  exact h2

theorem unload_of_not_key (d : Steps F) (s : List Char)
    (hk : ∀ kv ∈ d, ends_dollar kv.1 = true) (hs : ends_dollar s = false) :
    unload d s = d := by
  rw [unload]
  apply List.filter_eq_self.mpr
  intro kv hkv
  rw [bne_iff_ne]
  intro heq
  have h1 := hk kv hkv
  rw [heq, hs] at h1
  exact Bool.false_ne_true h1

theorem mem_dictInsert {d : Steps F} {k : List Char} {v : CompiledRe × F}
    {kv : List Char × (CompiledRe × F)} (h : kv ∈ dictInsert k v d) :
    kv.1 = k ∨ kv ∈ d := by
  induction d with
  | nil =>
    rw [dictInsert, List.mem_singleton] at h
    exact Or.inl (by rw [h])
  | cons kv0 rest ih =>
    rw [dictInsert] at h
    by_cases h0 : kv0.1 = k
    · rw [if_pos h0, List.mem_cons] at h
      rcases h with h | h
      · exact Or.inl (by rw [h])
      · exact Or.inr (List.mem_cons_of_mem kv0 h)
    · rw [if_neg h0, List.mem_cons] at h
      rcases h with h | h
      · exact Or.inr (by rw [h]; exact List.mem_cons_self kv0 rest)
      · rcases ih h with h1 | h1
        · exact Or.inl h1
        · exact Or.inr (List.mem_cons_of_mem kv0 h1)

/-- C1: the claim states that among several matching patterns, `match_step`
selects the one whose match starts at the smallest offset, regardless of
registration order.  The code refutes it: on the sentence `abcdef`, pattern
0 (registered first) matches at offset 0 and pattern 1 (registered second)
matches at offset 3, yet `match_step` returns pattern 1's function.  The
source initialises `matched_pos = len(step_.sentence)` but never updates it
inside the loop, so every later match starting before the end of the
sentence overrides the current best instead of only strictly-closer ones. -/
theorem c1_smallest_offset_violated :
    (searchSuffix (("abcdef").toList) (("abcdef").toList)).map RMatch.start = some 0 ∧
    (searchSuffix (("def").toList) (("abcdef").toList)).map RMatch.start = some 3 ∧
    match_step c1Steps (("abcdef").toList) = ⟨.defined 1, [], []⟩ := by
  refine ⟨by decide, by decide, by decide⟩

/-- C2: the claim states that among patterns matching at the same minimal
start offset, the one encountered earlier in registry iteration order wins.
The code refutes it: on the sentence `abc`, patterns 0 and 1 both match at
offset 0 (the minimal offset), pattern 0 was registered first, yet
`match_step` returns pattern 1's function — because `matched_pos` is never
updated, the later equal-offset match also satisfies
`pos < matched_pos = len(sentence)` and overrides the earlier one. -/
theorem c2_equal_offset_tiebreak_violated :
    (searchSuffix (("abc").toList) (("abc").toList)).map RMatch.start = some 0 ∧
    match_step c2Steps (("abc").toList) = ⟨.defined 1, [], []⟩ := by
  refine ⟨by decide, by decide⟩

/-- C7: registering a sentence with no trailing `$` is the same operation
as registering it with an explicit trailing `$`: both anchor to the same
pattern key and compile the same pattern, so `load` produces identical
registry states (and identical error outcomes). -/
theorem c7_anchoring_idempotent
    (compileFn : List Char → Except E (List Char → Option RMatch))
    (steps : Steps F) (s : List Char) (f : F) (h : ends_dollar s = false) :
    load compileFn steps s f = load compileFn steps (s ++ ['$']) f := by
  simp only [load, _assert_is_step, anchor_of_not_anchored h, anchor_of_anchored]

theorem c7_anchoring_idempotent_witness :
    ends_dollar (("abc").toList) = false ∧
    load compileOk ([] : Steps Nat) (("abc").toList) 0 =
      load compileOk [] ((("abc").toList) ++ ['$']) 0 :=
  ⟨by decide, c7_anchoring_idempotent compileOk [] (("abc").toList) 0 (by decide)⟩

/-- C8: when no registered pattern produces a match on the sentence,
`match_step` returns (without raising — it is a total function here) the
`undefined_step` sentinel with empty positional and empty keyword
arguments, and the undefined-step condition is signalled only upon invoking
that sentinel (for any interpretation `run` of registered functions). -/
theorem c8_undefined_sentinel {R : Type} (steps : Steps F) (sentence : List Char)
    (run : F → List (Option (List Char)) → List (List Char × Option (List Char)) → R)
    (h : ∀ kv ∈ steps, kv.2.1.search sentence = none) :
    match_step steps sentence = ⟨.undefined_step, [], []⟩ ∧
      invokeMatched run (match_step steps sentence) = .undefinedStepSignal := by
  have hl : match_loop sentence (steps.map Prod.snd) none sentence.length = none := by
    apply match_loop_of_no_match
    intro rf hrf
    rcases List.mem_map.mp hrf with ⟨kv, hkv, hgl⟩
    rw [← hgl]
    exact h kv hkv
  rw [match_step, hl]
  exact ⟨rfl, rfl⟩

theorem c8_undefined_sentinel_witness :
    (∀ kv ∈ c8Steps, kv.2.1.search (("abc").toList) = none) ∧
    match_step c8Steps (("abc").toList) = ⟨.undefined_step, [], []⟩ ∧
      invokeMatched (fun f _ _ => (f : Nat)) (match_step c8Steps (("abc").toList)) =
        .undefinedStepSignal :=
  ⟨by decide, c8_undefined_sentinel c8Steps (("abc").toList) (fun f _ _ => f) (by decide)⟩

/-- C9: when the (anchored) sentence does not compile, `load` reports the
`StepLoadingError` synchronously, the registry is returned unchanged, and
the error carries the offending pattern, the function being registered and
the underlying compilation error. -/
theorem c9_load_error
    (compileFn : List Char → Except E (List Char → Option RMatch))
    (steps : Steps F) (s : List Char) (f : F) (e : E)
    (h : compileFn (anchor s) = .error e) :
    load compileFn steps s f = (steps, some ⟨anchor s, f, e⟩) := by
  simp only [load, _assert_is_step, h]

theorem c9_load_error_witness :
    compileBad (anchor (("(").toList)) = .error 3 ∧
    load compileBad ([] : Steps Nat) (("(").toList) 5 =
      ([], some ⟨anchor (("(").toList), 5, 3⟩) :=
  ⟨rfl, c9_load_error compileBad [] (("(").toList) 5 3 rfl⟩

/-- C10: registering a sentence `s` with no trailing `$` stores it under
the anchored key `s ++ "$"`; on a registry whose keys are all anchored
(the invariant `load` maintains), `unload s` with the original sentence is
a no-op, while `unload (s ++ "$")` with the anchored form removes the
entry's key from the registry. -/
theorem c10_unload_requires_anchored
    (compileFn : List Char → Except E (List Char → Option RMatch))
    (steps : Steps F) (s : List Char) (f : F) (srch : List Char → Option RMatch)
    (hs : ends_dollar s = false)
    (hc : compileFn (s ++ ['$']) = .ok srch)
    (hk : ∀ kv ∈ steps, ends_dollar kv.1 = true) :
    load compileFn steps s f = (dictInsert (s ++ ['$']) (⟨s ++ ['$'], srch⟩, f) steps, none) ∧
    unload (dictInsert (s ++ ['$']) (⟨s ++ ['$'], srch⟩, f) steps) s =
      dictInsert (s ++ ['$']) (⟨s ++ ['$'], srch⟩, f) steps ∧
    hasKey (unload (dictInsert (s ++ ['$']) (⟨s ++ ['$'], srch⟩, f) steps) (s ++ ['$']))
      (s ++ ['$']) = false := by
  refine ⟨?_, ?_, hasKey_unload _ _⟩
  · simp only [load, _assert_is_step, anchor_of_not_anchored hs, hc]
  · apply unload_of_not_key _ _ _ hs
    intro kv hkv
    rcases mem_dictInsert hkv with h1 | h1
    · rw [h1]
      exact ends_dollar_append s
    · exact hk kv h1

theorem c10_unload_requires_anchored_witness :
    ends_dollar (("abc").toList) = false ∧
    compileOk ((("abc").toList) ++ ['$']) = .ok (searchSuffix ((("abc").toList) ++ ['$'])) ∧
    (∀ kv ∈ ([] : Steps Nat), ends_dollar kv.1 = true) ∧
    (load compileOk ([] : Steps Nat) (("abc").toList) 0 =
      (dictInsert ((("abc").toList) ++ ['$'])
        (⟨(("abc").toList) ++ ['$'], searchSuffix ((("abc").toList) ++ ['$'])⟩, 0) [], none) ∧
    unload (dictInsert ((("abc").toList) ++ ['$'])
        (⟨(("abc").toList) ++ ['$'], searchSuffix ((("abc").toList) ++ ['$'])⟩, 0) [])
        (("abc").toList) =
      dictInsert ((("abc").toList) ++ ['$'])
        (⟨(("abc").toList) ++ ['$'], searchSuffix ((("abc").toList) ++ ['$'])⟩, 0) [] ∧
    hasKey (unload (dictInsert ((("abc").toList) ++ ['$'])
        (⟨(("abc").toList) ++ ['$'], searchSuffix ((("abc").toList) ++ ['$'])⟩, 0) [])
        ((("abc").toList) ++ ['$'])) ((("abc").toList) ++ ['$']) = false) :=
  ⟨by decide, rfl, by decide,
    c10_unload_requires_anchored compileOk [] (("abc").toList) 0
      (searchSuffix ((("abc").toList) ++ ['$'])) (by decide) rfl (by decide)⟩

end StepDict

namespace CallbackDict

theorem runBefores_ok (l : List BHook) (h : ∀ x ∈ l, x.exc = none) :
    runBefores l = (l.map (fun x => HookEvent.before x.id), none) := by
  induction l with
  | nil => rfl
  | cons b rest ih =>
    have hb := h b (List.mem_cons_self b rest)
    simp only [runBefores, hb, ih (fun x hx => h x (List.mem_cons_of_mem b hx)), List.map_cons]

theorem runEnters_ok (l : List AroundHook) (h : ∀ x ∈ l, x.enterExc = none) :
    runEnters l = (l.map (fun x => HookEvent.enter x.id), l, none) := by
  induction l with
  | nil => rfl
  | cons a rest ih =>
    have ha := h a (List.mem_cons_self a rest)
    simp only [runEnters, ha, ih (fun x hx => h x (List.mem_cons_of_mem a hx)), List.map_cons]

theorem runExits_ok (l : List AroundHook) (h : ∀ x ∈ l, x.exitExc = none) :
    ∀ cur, runExits l cur = (l.map (fun x => HookEvent.exit x.id), cur) := by
  induction l with
  | nil => intro cur; rfl
  | cons a rest ih =>
    intro cur
    have ha := h a (List.mem_cons_self a rest)
    have ih' := ih (fun x hx => h x (List.mem_cons_of_mem a hx))
    cases cur with
    | none => simp only [runExits, ha, ih', List.map_cons]
    | some e => simp only [runExits, ih', List.map_cons]

theorem runAfters_ok (l : List BHook) (h : ∀ x ∈ l, x.exc = none) :
    ∀ cur, runAfters l cur = (l.map (fun x => HookEvent.after x.id), cur) := by
  induction l with
  | nil => intro cur; rfl
  | cons b rest ih =>
    intro cur
    have hb := h b (List.mem_cons_self b rest)
    simp only [runAfters, hb,
      ih (fun x hx => h x (List.mem_cons_of_mem b hx)), List.map_cons]

theorem runAfters_fail (l1 : List BHook) (hf : BHook) (l2 : List BHook) (e : Nat)
    (h1 : ∀ x ∈ l1, x.exc = none) (he : hf.exc = some e) :
    ∀ cur, runAfters (l1 ++ hf :: l2) cur =
      (l1.map (fun x => HookEvent.after x.id) ++ [HookEvent.after hf.id], some e) := by
  induction l1 with
  | nil =>
    intro cur
    simp only [List.nil_append, runAfters, he, List.map_nil]
  | cons b rest ih =>
    intro cur
    have hb := h1 b (List.mem_cons_self b rest)
    have ih' := ih (fun x hx => h1 x (List.mem_cons_of_mem b hx)) cur
    simp only [List.cons_append, runAfters, hb, List.append_eq, ih', List.map_cons]

/-- C3: when the body raises `e` (so all before-hooks ran and all around
regions were entered), and no after-hook or around-exit itself raises, the
wrapper still runs every entered around-hook's exit and every registered
after-hook exactly once each — the full trace is befores, enters, the
body, all exits in reverse entry order, all after-hooks in reverse order —
and the caller still observes the body's original exception `e`. -/
theorem c3_cleanup_on_body_failure {P : Type} [LinearOrder P]
    (s : ScopeHooks P) (e : Nat)
    (hb : ∀ x ∈ hook_list s.before, x.exc = none)
    (hre : ∀ x ∈ hook_list s.around, x.enterExc = none)
    (hrx : ∀ x ∈ hook_list s.around, x.exitExc = none)
    (ha : ∀ x ∈ hook_list s.after, x.exc = none) :
    wrapped s (some e) =
      ((hook_list s.before).map (fun x => HookEvent.before x.id) ++
        (hook_list s.around).map (fun x => HookEvent.enter x.id) ++
        [HookEvent.bodyRun] ++
        ((hook_list s.around).reverse.map (fun x => HookEvent.exit x.id)) ++
        ((hook_list s.after).reverse.map (fun x => HookEvent.after x.id)),
       some e) := by
  have h1 := runBefores_ok _ hb
  have h2 := runEnters_ok _ hre
  have h3 := runExits_ok (hook_list s.around).reverse
    (fun x hx => hrx x (List.mem_reverse.mp hx)) (some e)
  have h4 := runAfters_ok (hook_list s.after).reverse
    (fun x hx => ha x (List.mem_reverse.mp hx)) (some e)
  simp only [wrapped, h1, h2, h3, h4]

theorem c3_cleanup_on_body_failure_witness :
    (∀ x ∈ hook_list c3Scope.before, x.exc = none) ∧
    (∀ x ∈ hook_list c3Scope.around, x.enterExc = none) ∧
    (∀ x ∈ hook_list c3Scope.around, x.exitExc = none) ∧
    (∀ x ∈ hook_list c3Scope.after, x.exc = none) ∧
    wrapped c3Scope (some 42) =
      ((hook_list c3Scope.before).map (fun x => HookEvent.before x.id) ++
        (hook_list c3Scope.around).map (fun x => HookEvent.enter x.id) ++
        [HookEvent.bodyRun] ++
        ((hook_list c3Scope.around).reverse.map (fun x => HookEvent.exit x.id)) ++
        ((hook_list c3Scope.after).reverse.map (fun x => HookEvent.after x.id)),
       some 42) :=
  ⟨by decide, by decide, by decide, by decide,
    c3_cleanup_on_body_failure c3Scope 42 (by decide) (by decide) (by decide) (by decide)⟩

/-- C4: the claim states that when one after-hook raises during cleanup,
the remaining after-hooks still run.  The code refutes it: in `c4Scope`,
after-hook 2 (priority 5) runs first during cleanup and raises 7, and
after-hook 1 (priority 0) — still to run — never executes: the `finally`
loop in `wrap` has no per-hook exception handling, so the first raising
after-hook aborts the loop. -/
theorem c4_counterexample_after_failure :
    wrapped c4Scope none = ([HookEvent.bodyRun, HookEvent.after 2], some 7) ∧
    HookEvent.after 1 ∉ (wrapped c4Scope none).1 := by
  refine ⟨by decide, by decide⟩

/-- C4 (amended): if an after-hook raises during the composed wrapper's
cleanup, the after-hooks that come later in cleanup execution order do not
run: cleanup stops at the first raising after-hook and its exception
propagates to the caller, replacing any pending body exception. -/
theorem c4_after_failure_stops_cleanup {P : Type} [LinearOrder P]
    (s : ScopeHooks P) (bodyExc : Option Nat) (l1 l2 : List BHook) (hf : BHook) (e : Nat)
    (hb : ∀ x ∈ hook_list s.before, x.exc = none)
    (hre : ∀ x ∈ hook_list s.around, x.enterExc = none)
    (hrx : ∀ x ∈ hook_list s.around, x.exitExc = none)
    (hsplit : (hook_list s.after).reverse = l1 ++ hf :: l2)
    (h1 : ∀ x ∈ l1, x.exc = none)
    (he : hf.exc = some e) :
    wrapped s bodyExc =
      ((hook_list s.before).map (fun x => HookEvent.before x.id) ++
        (hook_list s.around).map (fun x => HookEvent.enter x.id) ++
        [HookEvent.bodyRun] ++
        ((hook_list s.around).reverse.map (fun x => HookEvent.exit x.id)) ++
        (l1.map (fun x => HookEvent.after x.id) ++ [HookEvent.after hf.id]),
       some e) := by
  have hh1 := runBefores_ok _ hb
  have hh2 := runEnters_ok _ hre
  have hh3 := runExits_ok (hook_list s.around).reverse
    (fun x hx => hrx x (List.mem_reverse.mp hx)) bodyExc
  have hh4 := runAfters_fail l1 hf l2 e h1 he bodyExc
  simp only [wrapped, hh1, hh2, hh3, hsplit, hh4]

theorem c4_after_failure_stops_cleanup_witness :
    (∀ x ∈ hook_list c4Scope.before, x.exc = none) ∧
    (∀ x ∈ hook_list c4Scope.around, x.enterExc = none) ∧
    (∀ x ∈ hook_list c4Scope.around, x.exitExc = none) ∧
    (hook_list c4Scope.after).reverse =
      [] ++ (⟨2, some 7⟩ : BHook) :: [(⟨1, none⟩ : BHook)] ∧
    (∀ x ∈ ([] : List BHook), x.exc = none) ∧
    (⟨2, some 7⟩ : BHook).exc = some 7 ∧
    wrapped c4Scope none =
      ((hook_list c4Scope.before).map (fun x => HookEvent.before x.id) ++
        (hook_list c4Scope.around).map (fun x => HookEvent.enter x.id) ++
        [HookEvent.bodyRun] ++
        ((hook_list c4Scope.around).reverse.map (fun x => HookEvent.exit x.id)) ++
        (([] : List BHook).map (fun x => HookEvent.after x.id) ++ [HookEvent.after 2]),
       some 7) :=
  ⟨by decide, by decide, by decide, by decide, by decide, rfl,
    c4_after_failure_stops_cleanup c4Scope none [] [⟨1, none⟩] ⟨2, some 7⟩ 7
      (by decide) (by decide) (by decide) (by decide) (by decide) rfl⟩

/-- C5: with before-hooks B1 (priority 0) and B2 (priority 5), around-hooks
R1 (0) and R2 (5) and after-hooks A1 (0) and A2 (5) registered at the scope
(here each pair registered in the opposite order, priority 5 first), the
wrapper runs exactly B1, B2, enter-R1, enter-R2, body, exit-R2, exit-R1,
A2, A1 and returns normally: before-hooks in ascending priority order,
after-hooks in descending order, around-hooks nested like a stack. -/
theorem c5_hook_nesting_order :
    wrapped c5Scope none =
      ([HookEvent.before 1, HookEvent.before 2, HookEvent.enter 1, HookEvent.enter 2,
        HookEvent.bodyRun, HookEvent.exit 2, HookEvent.exit 1, HookEvent.after 2,
        HookEvent.after 1], none) := by
  decide

theorem filter_not_name_filter_name {N β : Type} [DecidableEq N]
    (l : List (N × β)) (n : N) :
    (l.filter (fun kv => kv.1 != n)).filter (fun kv => kv.1 == n) = [] := by
  induction l with
  | nil => rfl
  | cons kv rest ih =>
    by_cases h : kv.1 = n
    · simp [List.filter_cons, h, ih]
    · simp [List.filter_cons, h, ih]

theorem filter_not_name_append {N β : Type} [DecidableEq N]
    (l : List (N × β)) (n : N) (f : β) :
    ((l.filter (fun kv => kv.1 != n)) ++ [(n, f)]).filter (fun kv => kv.1 != n) =
      l.filter (fun kv => kv.1 != n) := by
  rw [List.filter_append]
  simp [List.filter_filter]

/-- C6: re-registering the same identity `name` in the same
(scope, timing, priority) bucket leaves exactly one entry for that identity
in the bucket — carrying the latest function — and that entry sits at the
end of the bucket (the old entry is removed before the new one is
appended). -/
theorem c6_reregister_replaces {P N β : Type} [DecidableEq P] [DecidableEq N]
    (d : List (P × List (N × β))) (p : P) (name : N) (f g : β) :
    ∃ l, dictGet (append_to (append_to d p name f) p name g) p = some l ∧
      l.filter (fun kv => kv.1 == name) = [(name, g)] ∧
      l.getLast? = some (name, g) := by
  induction d with
  | nil =>
    refine ⟨[(name, g)], ?_, ?_, rfl⟩
    · simp [append_to, dictGet]
    · simp
  | cons pq rest ih =>
    obtain ⟨q, funcs⟩ := pq
    by_cases hq : q = p
    · subst hq
      refine ⟨funcs.filter (fun kv => kv.1 != name) ++ [(name, g)], ?_, ?_, ?_⟩
      · simp [append_to, dictGet, filter_not_name_append]
      · rw [List.filter_append, filter_not_name_filter_name]
        simp
      · rw [List.getLast?_concat]
    · rcases ih with ⟨l, hget, hfil, hlast⟩
      refine ⟨l, ?_, hfil, hlast⟩
      have hstep : append_to (append_to ((q, funcs) :: rest) p name f) p name g =
          (q, funcs) :: append_to (append_to rest p name f) p name g := by
        simp [append_to, hq]
      rw [hstep]
      unfold dictGet at hget ⊢
      rw [List.find?_cons_of_neg _ (by simp [hq])]
      exact hget

end CallbackDict

end Aloe

